import Mathlib

/-!
# Verification of the `xvt` register-table library

Shallow embedding of the two register-table implementations of the `xvt`
repository:

* `ValueTable` (`src/xvt/src/lib.rs`, "Mode A"): one 1 MiB zeroed arena,
  each numeric width owning a full 65536-entry region at a fixed byte
  offset, plus packed bit accessors at the start of the arena.
* `Registers` (`src/xvt/src/registers.rs`, "Mode B"): one zeroed arena,
  the 16-bit address space partitioned into per-width ranges
  `[MIN_w, MAX_w]`, with range checks on every accessor.

Memory is modelled as a total function from byte offset to byte value;
every accessor is translated directly from the Rust source.  The target is
a 64-bit little-endian machine (`usize` is 8 bytes), as assumed by the
source's pointer casts.
-/

namespace Xvt

/-- Byte-addressed memory: a total function from byte offset to the stored
byte.  Reads normalise modulo 256 so that all states are well-formed. -/
def Mem := Nat → Nat

/-- Read one byte. -/
def Mem.readByte (m : Mem) (i : Nat) : Nat := m i % 256

/-- Write one byte (the low 8 bits of `v`). -/
def Mem.writeByte (m : Mem) (i v : Nat) : Mem :=
  fun j => if j = i then v % 256 else m j

/-- Little-endian read of `w` consecutive bytes starting at offset `i`,
assembled into a natural number.  This is how the source's
`*(ptr as *const T)` reads a `T` of byte width `w` on a little-endian
machine. -/
def Mem.readLE (m : Mem) (i : Nat) : Nat → Nat
  | 0 => 0
  | w + 1 => m.readByte i + 256 * m.readLE (i + 1) w

/-- Little-endian write of the `w` low bytes of `v` starting at offset `i`:
the model of `*(ptr as *mut T) = v`. -/
def Mem.writeLE (m : Mem) (i v : Nat) : Nat → Mem
  | 0 => m
  | w + 1 => (m.writeByte i v).writeLE (i + 1) (v / 256) w

/-- The zero-filled arena produced by `alloc_zeroed`. -/
def Mem.zero : Mem := fun _ => 0

/-- Write a list of `w`-byte values at consecutive element slots starting at
byte offset `base`: the model of `std::ptr::copy(vals.as_ptr(), dst, n)`. -/
def Mem.writeVals (w : Nat) (m : Mem) (base : Nat) : List Nat → Mem
  | [] => m
  | v :: vs => Mem.writeVals w (m.writeLE base v w) (base + w) vs

/-- Read `n` consecutive `w`-byte values starting at byte offset `base`:
the model of `std::slice::from_raw_parts(ptr, n)` (element `k` sits at byte
`base + w * k`). -/
def Mem.readVals (w : Nat) (m : Mem) (base n : Nat) : List Nat :=
  (List.range n).map fun k => m.readLE (base + w * k) w

/-! ## The packed-bit accessors shared by both modes

Both `ValueTable` (`lib.rs:85-117`) and `Registers` (`registers.rs:102-139`)
use the same word arithmetic: `const N: u16 = std::mem::size_of::<usize>()
as u16` (which is 8, the *byte* size of `usize`, on the 64-bit target),
`offset = addr / N`, and the word is the `usize` at index `offset` of the
arena viewed as a `usize` array, i.e. the 8 bytes starting at byte
`8 * (addr / 8)`. -/

/-- Value of `std::mem::size_of::<usize>()` on the 64-bit target: the
constant `N` of the source's bit accessors. -/
def usizeBytes : Nat := 8

/-- Bit width of `usize` on the 64-bit target. -/
def usizeBits : Nat := 64

/-- Body of `get_bit`: read the word at `usize`-index `addr / N` and return
`val & (1 << (addr % N)) != 0`. -/
def Mem.rawGetBit (m : Mem) (addr : Nat) : Bool :=
  m.readLE (usizeBytes * (addr / usizeBytes)) usizeBytes
    &&& (1 <<< (addr % usizeBytes)) != 0

/-- Body of `set_bit`: `*val_ptr |= 1 << (addr % N)`. -/
def Mem.rawSetBit (m : Mem) (addr : Nat) : Mem :=
  m.writeLE (usizeBytes * (addr / usizeBytes))
    (m.readLE (usizeBytes * (addr / usizeBytes)) usizeBytes
      ||| (1 <<< (addr % usizeBytes)))
    usizeBytes

/-- Body of `clear_bit`: `*val_ptr &= !(1 << (addr % N))`; bitwise NOT on
the 64-bit `usize` is XOR with the all-ones word. -/
def Mem.rawClearBit (m : Mem) (addr : Nat) : Mem :=
  m.writeLE (usizeBytes * (addr / usizeBytes))
    (m.readLE (usizeBytes * (addr / usizeBytes)) usizeBytes
      &&& ((2 ^ usizeBits - 1) ^^^ (1 <<< (addr % usizeBytes))))
    usizeBytes

/-- The bit-read algorithm the specification describes (spec §4.3): locate
the containing word at `addr / WORD_BITS` and test bit `addr % WORD_BITS`,
where `WORD_BITS = 64` is the bit width of a native word.  Stated over the
same arena, for comparison with the code's accessors. -/
def Mem.specGetBit (m : Mem) (addr : Nat) : Bool :=
  (m.readLE (8 * (addr / 64)) 8).testBit (addr % 64)

/-! ## Mode A: `ValueTable` (`src/xvt/src/lib.rs`)

Every numeric accessor is generated by `impl_bits!($t, $n)`; we embed the
macro body once, parameterised by the region byte offset `ofs` and the
element byte width `w` (`size_of::<$t>()`).  The element pointer is
`mem.as_ptr().offset(ofs).cast::<$t>().offset(addr)`, i.e. byte
`ofs + w * addr`.  Addresses are `u16` values (`< 65536`). -/

structure ValueTable where
  mem : Mem

namespace ValueTable

def BITS_8_REG_OFS : Nat := 8192
def BITS_16_REG_OFS : Nat := BITS_8_REG_OFS + 65536
def BITS_32_REG_OFS : Nat := BITS_16_REG_OFS + 131072
def BITS_64_REG_OFS : Nat := BITS_32_REG_OFS + 262144

/-- Model of `ValueTable::new`: a zeroed 1 MiB arena. -/
def new : ValueTable := ⟨Mem.zero⟩

/-- Model of `get_$t(addr)` for a `$t` of byte width `w` stored at region
byte offset `ofs`. -/
def get (ofs w : Nat) (t : ValueTable) (addr : Nat) : Nat :=
  t.mem.readLE (ofs + w * addr) w

/-- Model of `get_$ts(addr, num)`: a slice of `min(65536 - addr, num)`
elements starting at element `addr` (the bound `m = 65536 - addr as usize`
is computed in `usize`, so it cannot overflow). -/
def gets (ofs w : Nat) (t : ValueTable) (addr num : Nat) : List Nat :=
  Mem.readVals w t.mem (ofs + w * addr) (min (65536 - addr) num)

/-- Model of `set_$t(addr, val)`. -/
def set (ofs w : Nat) (t : ValueTable) (addr v : Nat) : ValueTable :=
  ⟨t.mem.writeLE (ofs + w * addr) v w⟩

/-- Model of `set_$ts(addr, vals)`: `ptr::copy` of
`min(65536 - addr, vals.len())` elements. -/
def sets (ofs w : Nat) (t : ValueTable) (addr : Nat) (vs : List Nat) :
    ValueTable :=
  ⟨Mem.writeVals w t.mem (ofs + w * addr)
    (vs.take (min (65536 - addr) vs.length))⟩

/-- Model of `ValueTable::get_bit`. -/
def get_bit (t : ValueTable) (addr : Nat) : Bool := t.mem.rawGetBit addr

/-- Model of `ValueTable::set_bit`. -/
def set_bit (t : ValueTable) (addr : Nat) : ValueTable := ⟨t.mem.rawSetBit addr⟩

/-- Model of `ValueTable::clear_bit`. -/
def clear_bit (t : ValueTable) (addr : Nat) : ValueTable :=
  ⟨t.mem.rawClearBit addr⟩

/-- Instantiation of the macro at `u8`. -/
def get_u8 (t : ValueTable) (addr : Nat) : Nat := get BITS_8_REG_OFS 1 t addr

/-- Instantiation of the macro at `u8`. -/
def set_u8 (t : ValueTable) (addr v : Nat) : ValueTable :=
  set BITS_8_REG_OFS 1 t addr v

end ValueTable

/-! ## Mode B: `Registers` (`src/xvt/src/registers.rs`)

The macro body resolves the element pointer as
`mem.cast::<$t>().as_ptr().offset(reg - MIN + OFS)`: the cast happens
*before* the offset, so `OFS` counts elements of width `w` and the byte
offset is `w * (reg - MIN + OFS)`.  All range arithmetic is on `u16`
(`reg + num` and `values.len() as u16` wrap modulo 2^16). -/

structure Registers where
  mem : Mem

namespace Registers

def BIT_REG_MIN : Nat := 0x0000
def BIT_REG_MAX : Nat := 0x1FFF
def BIT_REG_NUM : Nat := 0x2000

def BITS_8_REG_MIN : Nat := 0x2000
def BITS_8_REG_MAX : Nat := 0x7FFF
def BITS_8_REG_NUM : Nat := 0x6000

def BITS_16_REG_MIN : Nat := 0x8000
def BITS_16_REG_MAX : Nat := 0xBFFF
def BITS_16_REG_NUM : Nat := 0x4000

def BITS_32_REG_MIN : Nat := 0xC000
def BITS_32_REG_MAX : Nat := 0xDFFF
def BITS_32_REG_NUM : Nat := 0x2000

def BITS_64_REG_MIN : Nat := 0xE000
def BITS_64_REG_MAX : Nat := 0xFFFF
def BITS_64_REG_NUM : Nat := 0x2000

def BITS_8_REG_OFS : Nat := BIT_REG_NUM / 8
def BITS_16_REG_OFS : Nat := BITS_8_REG_OFS + BITS_8_REG_NUM
def BITS_32_REG_OFS : Nat := BITS_16_REG_OFS + BITS_16_REG_NUM
def BITS_64_REG_OFS : Nat := BITS_32_REG_OFS + BITS_32_REG_NUM

/-- Model of `Registers::new`: a zeroed 1 GiB arena. -/
def new : Registers := ⟨Mem.zero⟩

/-- Model of `get_$t(reg)`: zero outside `[MIN, MAX]`, else the element at
byte `w * (reg - MIN + OFS)`. -/
def get (w MIN MAX OFS : Nat) (t : Registers) (reg : Nat) : Nat :=
  if reg < MIN ∨ MAX < reg then 0
  else t.mem.readLE (w * (reg - MIN + OFS)) w

/-- Model of `get_$t_values(reg, num)`: empty if `reg < MIN || reg > MAX ||
(reg + num) > MAX` (the sum `reg + num` wrapping on `u16`), else `num`
consecutive elements. -/
def get_values (w MIN MAX OFS : Nat) (t : Registers) (reg num : Nat) :
    List Nat :=
  if reg < MIN ∨ MAX < reg ∨ MAX < (reg + num) % 65536 then []
  else Mem.readVals w t.mem (w * (reg - MIN + OFS)) num

/-- Model of `set_$t(reg, val)`: write only when `MIN ≤ reg ≤ MAX`. -/
def set (w MIN MAX OFS : Nat) (t : Registers) (reg v : Nat) : Registers :=
  if MIN ≤ reg ∧ reg ≤ MAX then
    ⟨t.mem.writeLE (w * (reg - MIN + OFS)) v w⟩
  else t

/-- Model of `set_$t_values(reg, values)`: `ptr::copy` of all
`values.len()` elements only when `reg >= MIN && reg <= MAX &&
(reg + values.len() as u16) <= MAX` (the length cast and the sum both
wrapping on `u16`); otherwise no write at all. -/
def set_values (w MIN MAX OFS : Nat) (t : Registers) (reg : Nat)
    (vs : List Nat) : Registers :=
  if MIN ≤ reg ∧ reg ≤ MAX ∧ (reg + vs.length % 65536) % 65536 ≤ MAX then
    ⟨Mem.writeVals w t.mem (w * (reg - MIN + OFS)) vs⟩
  else t

/-- Model of `Registers::get_bit`: `false` above `BIT_REG_MAX`, else the
shared packed-bit read. -/
def get_bit (t : Registers) (reg : Nat) : Bool :=
  if BIT_REG_MAX < reg then false else t.mem.rawGetBit reg

/-- Model of `Registers::set_bit`. -/
def set_bit (t : Registers) (reg : Nat) : Registers :=
  if reg ≤ BIT_REG_MAX then ⟨t.mem.rawSetBit reg⟩ else t

/-- Model of `Registers::clear_bit`. -/
def clear_bit (t : Registers) (reg : Nat) : Registers :=
  if reg ≤ BIT_REG_MAX then ⟨t.mem.rawClearBit reg⟩ else t

/-- Instantiation of the macro at `u8` (`w = 1`, the 8-bit range and region
offset). -/
def get_u8 (t : Registers) (reg : Nat) : Nat :=
  get 1 BITS_8_REG_MIN BITS_8_REG_MAX BITS_8_REG_OFS t reg

/-- Instantiation of the macro at `u8`. -/
def set_u8 (t : Registers) (reg v : Nat) : Registers :=
  set 1 BITS_8_REG_MIN BITS_8_REG_MAX BITS_8_REG_OFS t reg v

/-- Two's-complement bit pattern of an `i16`. -/
def i16ToBits (v : Int) : Nat := (v % 65536).toNat

/-- Decode a 16-bit pattern as an `i16`. -/
def bitsToI16 (n : Nat) : Int :=
  if n < 32768 then (n : Int) else (n : Int) - 65536

/-- Instantiation of the macro at `i16`, decoding the pattern. -/
def get_i16 (t : Registers) (reg : Nat) : Int :=
  bitsToI16 (get 2 BITS_16_REG_MIN BITS_16_REG_MAX BITS_16_REG_OFS t reg)

/-- Instantiation of the macro at `i16`. -/
def get_i16_values (t : Registers) (reg num : Nat) : List Int :=
  (get_values 2 BITS_16_REG_MIN BITS_16_REG_MAX BITS_16_REG_OFS t reg
    num).map bitsToI16

/-- Instantiation of the macro at `i16`. -/
def set_i16_values (t : Registers) (reg : Nat) (vs : List Int) : Registers :=
  set_values 2 BITS_16_REG_MIN BITS_16_REG_MAX BITS_16_REG_OFS t reg
    (vs.map i16ToBits)

end Registers

/-! ## Basic read/write lemmas -/

theorem Mem.readByte_writeByte_self (m : Mem) (i v : Nat) :
    (m.writeByte i v).readByte i = v % 256 := by
  simp [Mem.readByte, Mem.writeByte]

theorem Mem.readByte_writeByte_of_ne (m : Mem) (i v j : Nat) (h : j ≠ i) :
    (m.writeByte i v).readByte j = m.readByte j := by
  simp [Mem.readByte, Mem.writeByte, h]

theorem Mem.readByte_lt (m : Mem) (i : Nat) : m.readByte i < 256 :=
  Nat.mod_lt _ (by omega)

theorem Mem.readLE_lt (m : Mem) (i w : Nat) : m.readLE i w < 256 ^ w := by
  induction w generalizing m i with
  | zero => simp [Mem.readLE]
  | succ w ih =>
    have h1 := m.readByte_lt i
    have h2 := ih m (i + 1)
    have : 256 * m.readLE (i + 1) w + 256 ≤ 256 * 256 ^ w := by
      have := Nat.succ_le_of_lt h2
      calc 256 * m.readLE (i + 1) w + 256 = 256 * (m.readLE (i + 1) w + 1) := by ring
        _ ≤ 256 * 256 ^ w := Nat.mul_le_mul_left _ this
    have : m.readByte i + 256 * m.readLE (i + 1) w < 256 * 256 ^ w := by omega
    simpa [Mem.readLE, Nat.pow_succ, Nat.mul_comm] using this

/-- A `writeLE` leaves every byte outside `[i, i+w)` untouched. -/
theorem Mem.writeLE_apply_outside (m : Mem) (i v w j : Nat)
    (h : j < i ∨ i + w ≤ j) : (m.writeLE i v w) j = m j := by
  induction w generalizing m i v with
  | zero => rfl
  | succ w ih =>
    have hj : j ≠ i := by omega
    have : (m.writeByte i v) j = m j := by simp [Mem.writeByte, hj]
    rw [Mem.writeLE, ih _ _ _ (by omega), this]

theorem Mem.readByte_writeLE_outside (m : Mem) (i v w j : Nat)
    (h : j < i ∨ i + w ≤ j) : (m.writeLE i v w).readByte j = m.readByte j := by
  simp [Mem.readByte, Mem.writeLE_apply_outside m i v w j h]

/-- Reading back the bytes just written, little-endian round trip. -/
theorem Mem.readLE_writeLE_self (m : Mem) (i v w : Nat) :
    (m.writeLE i v w).readLE i w = v % 256 ^ w := by
  induction w generalizing m i v with
  | zero => simp [Mem.readLE, Nat.mod_one]
  | succ w ih =>
    have hfirst : ((m.writeByte i v).writeLE (i + 1) (v / 256) w).readByte i
        = v % 256 := by
      rw [Mem.readByte_writeLE_outside _ _ _ _ _ (by omega)]
      exact m.readByte_writeByte_self i v
    have hrest := ih (m.writeByte i v) (i + 1) (v / 256)
    have hsplit : v % 256 ^ (w + 1) = v % 256 + 256 * (v / 256 % 256 ^ w) := by
      have : (256 : Nat) ^ (w + 1) = 256 * 256 ^ w := by ring
      rw [this, Nat.mod_mul]
    rw [Mem.writeLE, Mem.readLE, hfirst, hrest, hsplit]

/-- A `writeLE` does not change a `readLE` from a disjoint byte range. -/
theorem Mem.readLE_writeLE_disjoint (m : Mem) (i v w j w' : Nat)
    (h : j + w' ≤ i ∨ i + w ≤ j) :
    (m.writeLE i v w).readLE j w' = m.readLE j w' := by
  induction w' generalizing j with
  | zero => rfl
  | succ w' ih =>
    rw [Mem.readLE, Mem.readLE,
      Mem.readByte_writeLE_outside _ _ _ _ _ (by omega), ih _ (by omega)]

theorem Mem.readByte_zero (i : Nat) : Mem.zero.readByte i = 0 := rfl

theorem Mem.readLE_zero (i w : Nat) : Mem.zero.readLE i w = 0 := by
  induction w generalizing i with
  | zero => rfl
  | succ w ih => simp [Mem.readLE, Mem.readByte_zero, ih]

/-! ## Word-level lemmas for the bit accessors -/

theorem Mem.rawGetBit_eq_testBit (m : Mem) (addr : Nat) :
    m.rawGetBit addr
      = (m.readLE (usizeBytes * (addr / usizeBytes)) usizeBytes).testBit
          (addr % usizeBytes) := by
  unfold Mem.rawGetBit
  rw [Nat.shiftLeft_eq, one_mul, Nat.and_two_pow]
  cases h : (m.readLE (usizeBytes * (addr / usizeBytes)) usizeBytes).testBit
      (addr % usizeBytes) <;> simp [h]

theorem two_pow_64_eq : (256 : Nat) ^ 8 = 2 ^ 64 := by norm_num

theorem Mem.rawGetBit_rawSetBit_self (m : Mem) (addr : Nat) :
    (m.rawSetBit addr).rawGetBit addr = true := by
  rw [Mem.rawGetBit_eq_testBit]
  unfold Mem.rawSetBit
  simp only [usizeBytes, usizeBits]
  rw [Nat.shiftLeft_eq, one_mul, Mem.readLE_writeLE_self, two_pow_64_eq]
  have hk : addr % 8 < 64 := by omega
  have hlt : m.readLE (8 * (addr / 8)) 8 ||| 2 ^ (addr % 8) < 2 ^ 64 := by
    apply Nat.or_lt_two_pow
    · rw [← two_pow_64_eq]; exact m.readLE_lt _ _
    · exact Nat.pow_lt_pow_right (by norm_num) hk
  rw [Nat.mod_eq_of_lt hlt, Nat.testBit_or, Nat.testBit_two_pow_self,
    Bool.or_true]

theorem Mem.rawGetBit_rawClearBit_self (m : Mem) (addr : Nat) :
    (m.rawClearBit addr).rawGetBit addr = false := by
  rw [Mem.rawGetBit_eq_testBit]
  unfold Mem.rawClearBit
  simp only [usizeBytes, usizeBits]
  rw [Nat.shiftLeft_eq, one_mul, Mem.readLE_writeLE_self, two_pow_64_eq]
  have hk : addr % 8 < 64 := by omega
  have hlt : m.readLE (8 * (addr / 8)) 8
      &&& ((2 ^ 64 - 1) ^^^ 2 ^ (addr % 8)) < 2 ^ 64 := by
    exact lt_of_le_of_lt Nat.and_le_left
      (by rw [← two_pow_64_eq]; exact m.readLE_lt _ _)
  rw [Nat.mod_eq_of_lt hlt, Nat.testBit_and, Nat.testBit_xor,
    Nat.testBit_two_pow_sub_one, Nat.testBit_two_pow_self]
  simp [hk]

/-- Distinct bit addresses use distinct (word, bit-position) pairs. -/
theorem bit_pos_ne (a b : Nat) (hne : a ≠ b) (hdiv : a / 8 = b / 8) :
    a % 8 ≠ b % 8 := by omega

theorem Mem.rawGetBit_rawSetBit_of_ne (m : Mem) (a b : Nat) (hne : a ≠ b) :
    (m.rawSetBit a).rawGetBit b = m.rawGetBit b := by
  rw [Mem.rawGetBit_eq_testBit, Mem.rawGetBit_eq_testBit]
  unfold Mem.rawSetBit
  simp only [usizeBytes, usizeBits]
  by_cases hdiv : a / 8 = b / 8
  · rw [hdiv, Mem.readLE_writeLE_self, two_pow_64_eq,
      Nat.shiftLeft_eq, one_mul]
    have hlt : m.readLE (8 * (b / 8)) 8 ||| 2 ^ (a % 8) < 2 ^ 64 := by
      apply Nat.or_lt_two_pow
      · rw [← two_pow_64_eq]; exact m.readLE_lt _ _
      · exact Nat.pow_lt_pow_right (by norm_num) (by omega)
    rw [Nat.mod_eq_of_lt hlt, Nat.testBit_or,
      Nat.testBit_two_pow_of_ne (bit_pos_ne a b hne hdiv), Bool.or_false]
  · rw [Mem.readLE_writeLE_disjoint]
    rcases Nat.lt_or_ge (a / 8) (b / 8) with h | h
    · right; omega
    · have : b / 8 < a / 8 := by omega
      left; omega

theorem Mem.rawGetBit_rawClearBit_of_ne (m : Mem) (a b : Nat) (hne : a ≠ b) :
    (m.rawClearBit a).rawGetBit b = m.rawGetBit b := by
  rw [Mem.rawGetBit_eq_testBit, Mem.rawGetBit_eq_testBit]
  unfold Mem.rawClearBit
  simp only [usizeBytes, usizeBits]
  by_cases hdiv : a / 8 = b / 8
  · rw [hdiv, Mem.readLE_writeLE_self, two_pow_64_eq,
      Nat.shiftLeft_eq, one_mul]
    have hlt : m.readLE (8 * (b / 8)) 8
        &&& ((2 ^ 64 - 1) ^^^ 2 ^ (a % 8)) < 2 ^ 64 := by
      exact lt_of_le_of_lt Nat.and_le_left
        (by rw [← two_pow_64_eq]; exact m.readLE_lt _ _)
    rw [Nat.mod_eq_of_lt hlt, Nat.testBit_and, Nat.testBit_xor,
      Nat.testBit_two_pow_sub_one,
      Nat.testBit_two_pow_of_ne (bit_pos_ne a b hne hdiv)]
    have hb : b % 8 < 64 := by omega
    simp [hb]
  · rw [Mem.readLE_writeLE_disjoint]
    rcases Nat.lt_or_ge (a / 8) (b / 8) with h | h
    · right; omega
    · have : b / 8 < a / 8 := by omega
      left; omega

/-! ## Bulk-copy lemmas -/

/-- A bulk copy leaves every byte outside `[base, base + w*|vs|)` untouched. -/
theorem Mem.writeVals_apply_outside (w : Nat) (m : Mem) (base : Nat)
    (vs : List Nat) (j : Nat) (h : j < base ∨ base + w * vs.length ≤ j) :
    (Mem.writeVals w m base vs) j = m j := by
  induction vs generalizing m base with
  | nil => rfl
  | cons v vs ih =>
    rw [List.length_cons, Nat.mul_succ] at h
    rw [Mem.writeVals, ih _ _ (by omega),
      Mem.writeLE_apply_outside _ _ _ _ _ (by omega)]

theorem Mem.readLE_writeVals_outside (w : Nat) (m : Mem) (base : Nat)
    (vs : List Nat) (j w' : Nat)
    (h : j + w' ≤ base ∨ base + w * vs.length ≤ j) :
    (Mem.writeVals w m base vs).readLE j w' = m.readLE j w' := by
  induction w' generalizing j with
  | zero => rfl
  | succ w' ih =>
    rw [Mem.readLE, Mem.readLE, ih _ (by omega), Mem.readByte, Mem.readByte,
      Mem.writeVals_apply_outside w m base vs j (by omega)]

/-- Bulk round trip at the memory level: reading back the `|vs|` slots just
written yields `vs` truncated to `w` bytes per element. -/
theorem Mem.readVals_writeVals_self (w : Nat) (m : Mem) (base : Nat)
    (vs : List Nat) :
    Mem.readVals w (Mem.writeVals w m base vs) base vs.length
      = vs.map (· % 256 ^ w) := by
  induction vs generalizing m base with
  | nil => rfl
  | cons v vs ih =>
    rw [Mem.writeVals, List.length_cons, List.map_cons, Mem.readVals,
      List.range_succ_eq_map, List.map_cons, List.map_map]
    congr 1
    · rw [Nat.mul_zero, Nat.add_zero,
        Mem.readLE_writeVals_outside _ _ _ _ _ _ (by left; omega),
        Mem.readLE_writeLE_self]
    · rw [← ih (m.writeLE base v w) (base + w), Mem.readVals]
      apply List.map_congr_left
      intro k _
      have harg : base + w * (k + 1) = base + w + w * k := by ring
      simp [Function.comp, Nat.succ_eq_add_one, harg]

theorem Mem.readVals_length (w : Nat) (m : Mem) (base n : Nat) :
    (Mem.readVals w m base n).length = n := by
  simp [Mem.readVals]

theorem Mem.readVals_getD (w : Nat) (m : Mem) (base n k : Nat) (h : k < n) :
    (Mem.readVals w m base n).getD k 0 = m.readLE (base + w * k) w := by
  unfold Mem.readVals
  rw [List.getD_eq_getElem?_getD, List.getElem?_map, List.getElem?_range h]
  rfl

/-- Element `k` of a just-written run reads back as `vs[k]` truncated to `w`
bytes. -/
theorem Mem.readLE_writeVals_self (w : Nat) (m : Mem) (base : Nat)
    (vs : List Nat) (k : Nat) (h : k < vs.length) :
    (Mem.writeVals w m base vs).readLE (base + w * k) w
      = vs.getD k 0 % 256 ^ w := by
  have h1 := Mem.readVals_writeVals_self w m base vs
  have h2 := Mem.readVals_getD w (Mem.writeVals w m base vs) base vs.length k h
  rw [h1] at h2
  rw [← h2, List.getD_eq_getElem?_getD, List.getElem?_map,
    List.getD_eq_getElem?_getD, List.getElem?_eq_getElem h]
  rfl

/-! ## The claims -/

/-- C1: the spec claims that a write through one width's accessor at a
valid address never changes any other width's reads (disjoint regions).
The code violates this: because the bit accessors index words by
`addr / size_of::<usize>()` (= `addr / 8`) instead of `addr / 64`, a
`set_bit` at the valid bit address 8192 (Mode A) or 1024 (Mode B) lands in
the 8-bit region and flips `get_u8(0)` resp. `get_u8(0x2000)` from 0 to 1.
This theorem evaluates the code at those failing inputs. -/
theorem C1_disjointness_violated :
    (ValueTable.new.get_u8 0 = 0
      ∧ (ValueTable.new.set_bit 8192).get_u8 0 = 1)
    ∧ (Registers.new.get_u8 0x2000 = 0
      ∧ (Registers.new.set_bit 1024).get_u8 0x2000 = 1) := by
  decide

/-- C5: scalar round trip.  For every width (region byte offset `ofs`/
element offset `OFS`, byte width `w`), valid address and in-range value,
`set_T(a, v)` followed by `get_T(a)` returns `v`, in Mode A and Mode B. -/
theorem C5_scalar_round_trip (ofsA wA : Nat) (tA : ValueTable) (aA vA : Nat)
    (hvA : vA < 256 ^ wA) (w MIN MAX OFS : Nat) (tB : Registers) (a v : Nat)
    (h1 : MIN ≤ a) (h2 : a ≤ MAX) (hv : v < 256 ^ w) :
    ValueTable.get ofsA wA (ValueTable.set ofsA wA tA aA vA) aA = vA
    ∧ Registers.get w MIN MAX OFS (Registers.set w MIN MAX OFS tB a v) a
        = v := by
  constructor
  · show (tA.mem.writeLE (ofsA + wA * aA) vA wA).readLE (ofsA + wA * aA) wA
        = vA
    rw [Mem.readLE_writeLE_self, Nat.mod_eq_of_lt hvA]
  · unfold Registers.set Registers.get
    rw [if_neg (by omega), if_pos ⟨h1, h2⟩]
    show (tB.mem.writeLE (w * (a - MIN + OFS)) v w).readLE
        (w * (a - MIN + OFS)) w = v
    rw [Mem.readLE_writeLE_self, Nat.mod_eq_of_lt hv]

/-- Witness for C5 at the `u16` instantiations of both modes. -/
theorem C5_witness :
    ValueTable.get 73728 2 (ValueTable.set 73728 2 ValueTable.new 7 43981) 7
        = 43981
    ∧ Registers.get 2 0x8000 0xBFFF 25600
        (Registers.set 2 0x8000 0xBFFF 25600 Registers.new 0x8123 43981)
        0x8123 = 43981 :=
  C5_scalar_round_trip 73728 2 ValueTable.new 7 43981 (by decide)
    2 0x8000 0xBFFF 25600 Registers.new 0x8123 43981 (by decide) (by decide)
    (by decide)

/-- C6: the spec describes the bit accessors as indexing the word at
`addr / WORD_BITS` and bit `addr % WORD_BITS` with `WORD_BITS` the *bit*
width of a native word (64); the layout constants reserve exactly enough
bytes for that indexing.  The code instead uses
`N = size_of::<usize>() = 8`.  At address 64, the code's `set_bit` makes
its own `get_bit 64` true, while the algorithm claimed by the spec reads
that bit as still false and instead sees spec-address 512 become true:
the code does not implement the claimed algorithm. -/
theorem C6_bit_algorithm_deviates :
    (ValueTable.new.set_bit 64).get_bit 64 = true
    ∧ Mem.specGetBit (ValueTable.new.set_bit 64).mem 64 = false
    ∧ Mem.specGetBit (ValueTable.new.set_bit 64).mem 512 = true := by
  decide

/-- C7: Mode B scalar boundary rejection.  For any width parameters and any
address outside `[MIN, MAX]`, `get_T` returns 0, `set_T` leaves the table
unchanged, and the attempted write leaves `get_bit` at that address
unchanged. -/
theorem C7_modeB_boundary_rejection (w MIN MAX OFS : Nat) (t : Registers)
    (a v : Nat) (h : a < MIN ∨ MAX < a) :
    Registers.get w MIN MAX OFS t a = 0
    ∧ Registers.set w MIN MAX OFS t a v = t
    ∧ (Registers.set w MIN MAX OFS t a v).get_bit a = t.get_bit a := by
  have hset : Registers.set w MIN MAX OFS t a v = t := by
    unfold Registers.set
    rw [if_neg (by omega)]
  refine ⟨?_, hset, by rw [hset]⟩
  unfold Registers.get
  rw [if_pos h]

/-- Witness for C7 at the claim's concrete instance: `get_u8(0x1000)` is 0
and `set_u8(0x1000, 0xAA)` changes nothing. -/
theorem C7_witness :
    Registers.get 1 0x2000 0x7FFF 1024 Registers.new 0x1000 = 0
    ∧ Registers.set 1 0x2000 0x7FFF 1024 Registers.new 0x1000 0xAA
        = Registers.new
    ∧ (Registers.set 1 0x2000 0x7FFF 1024 Registers.new 0x1000
        0xAA).get_bit 0x1000 = Registers.new.get_bit 0x1000 :=
  C7_modeB_boundary_rejection 1 0x2000 0x7FFF 1024 Registers.new 0x1000 0xAA
    (by decide)

/-- C8: bit round trip.  For every address in the bit domain (all of `u16`
in Mode A, `[0, 0x1FFF]` in Mode B), `set_bit` then `get_bit` is `true` and
`clear_bit` then `get_bit` is `false`. -/
theorem C8_bit_round_trip (tA : ValueTable) (a : Nat) (_ha : a < 65536)
    (tB : Registers) (b : Nat) (hb : b ≤ Registers.BIT_REG_MAX) :
    (tA.set_bit a).get_bit a = true
    ∧ (tA.clear_bit a).get_bit a = false
    ∧ (tB.set_bit b).get_bit b = true
    ∧ (tB.clear_bit b).get_bit b = false := by
  have hgb : ∀ (s : Registers), s.get_bit b = s.mem.rawGetBit b := by
    intro s
    unfold Registers.get_bit
    rw [if_neg (by omega)]
  have hsb : tB.set_bit b = ⟨tB.mem.rawSetBit b⟩ := by
    unfold Registers.set_bit
    rw [if_pos hb]
  have hcb : tB.clear_bit b = ⟨tB.mem.rawClearBit b⟩ := by
    unfold Registers.clear_bit
    rw [if_pos hb]
  exact ⟨Mem.rawGetBit_rawSetBit_self tA.mem a,
    Mem.rawGetBit_rawClearBit_self tA.mem a,
    by rw [hsb, hgb]; exact Mem.rawGetBit_rawSetBit_self tB.mem b,
    by rw [hcb, hgb]; exact Mem.rawGetBit_rawClearBit_self tB.mem b⟩

/-- Witness for C8 at concrete addresses. -/
theorem C8_witness :
    (ValueTable.new.set_bit 0x1000).get_bit 0x1000 = true
    ∧ (ValueTable.new.clear_bit 0x1000).get_bit 0x1000 = false
    ∧ (Registers.new.set_bit 0x123).get_bit 0x123 = true
    ∧ (Registers.new.clear_bit 0x123).get_bit 0x123 = false :=
  C8_bit_round_trip ValueTable.new 0x1000 (by decide) Registers.new 0x123
    (by decide)

/-- C9: zero-initialization.  Immediately after `new()`, `get_bit` is
`false` at every address and every width's `get_T` returns 0 at every
address (in Mode B even outside the valid range, where the guard itself
returns 0). -/
theorem C9_zero_init :
    (∀ a, ValueTable.new.get_bit a = false)
    ∧ (∀ ofs w a, ValueTable.get ofs w ValueTable.new a = 0)
    ∧ (∀ b, Registers.new.get_bit b = false)
    ∧ (∀ w MIN MAX OFS b, Registers.get w MIN MAX OFS Registers.new b
        = 0) := by
  refine ⟨fun a => ?_, fun ofs w a => ?_, fun b => ?_,
    fun w MIN MAX OFS b => ?_⟩
  · show Mem.zero.rawGetBit a = false
    rw [Mem.rawGetBit_eq_testBit, Mem.readLE_zero]
    exact Nat.zero_testBit _
  · exact Mem.readLE_zero _ _
  · unfold Registers.get_bit
    split
    · rfl
    · show Mem.zero.rawGetBit b = false
      rw [Mem.rawGetBit_eq_testBit, Mem.readLE_zero]
      exact Nat.zero_testBit _
  · unfold Registers.get
    split
    · rfl
    · exact Mem.readLE_zero _ _

/-- C10: bit independence.  `set_bit`/`clear_bit` at a bit-domain address
`a` never changes `get_bit` at any other bit-domain address `b`, in both
modes (distinct addresses map to distinct word/bit-position pairs). -/
theorem C10_bit_independence :
    (∀ (t : ValueTable) (a b : Nat), a < 65536 → b < 65536 → a ≠ b →
        (t.set_bit a).get_bit b = t.get_bit b
        ∧ (t.clear_bit a).get_bit b = t.get_bit b)
    ∧ (∀ (t : Registers) (a b : Nat), a ≤ Registers.BIT_REG_MAX →
        b ≤ Registers.BIT_REG_MAX → a ≠ b →
        (t.set_bit a).get_bit b = t.get_bit b
        ∧ (t.clear_bit a).get_bit b = t.get_bit b) := by
  constructor
  · intro t a b _ _ hne
    exact ⟨Mem.rawGetBit_rawSetBit_of_ne t.mem a b hne,
      Mem.rawGetBit_rawClearBit_of_ne t.mem a b hne⟩
  · intro t a b ha hb hne
    have hgb : ∀ (s : Registers), s.get_bit b = s.mem.rawGetBit b := by
      intro s
      unfold Registers.get_bit
      rw [if_neg (by omega)]
    have hsb : t.set_bit a = ⟨t.mem.rawSetBit a⟩ := by
      unfold Registers.set_bit
      rw [if_pos ha]
    have hcb : t.clear_bit a = ⟨t.mem.rawClearBit a⟩ := by
      unfold Registers.clear_bit
      rw [if_pos ha]
    constructor
    · rw [hsb, hgb, hgb]
      exact Mem.rawGetBit_rawSetBit_of_ne t.mem a b hne
    · rw [hcb, hgb, hgb]
      exact Mem.rawGetBit_rawClearBit_of_ne t.mem a b hne

/-- C2: the spec claims the bulk round trip holds for every run lying fully
within the valid range.  In Mode B the guard is `(reg + num) > MAX`, which
also rejects a run whose last element sits exactly at `MAX`:
`set_i16_values(0xBFFF, [7])` writes nothing and `get_i16_values(0xBFFF, 1)`
returns `[]`, not `[7]`, although the run `{0xBFFF}` is fully in range. -/
theorem C2_counterexample :
    (Registers.new.set_i16_values 0xBFFF [7]).get_i16_values 0xBFFF 1 = []
    ∧ ([] : List Int) ≠ [7] := by
  constructor
  · decide
  · decide

/-- C2 (amended): the bulk round trip holds in Mode B whenever additionally
`a + len(vs) ≤ MAX` (strictly before the end-of-range off-by-one), and in
Mode A whenever `a + len(vs) ≤ 65536`; the claim's concrete i16 scenario
holds as stated. -/
theorem C2_bulk_round_trip_amended :
    (∀ (w MIN MAX OFS : Nat) (t : Registers) (a : Nat) (vs : List Nat),
        MAX < 65536 → MIN ≤ a → a + vs.length ≤ MAX →
        (∀ v ∈ vs, v < 256 ^ w) →
        Registers.get_values w MIN MAX OFS
          (Registers.set_values w MIN MAX OFS t a vs) a vs.length = vs)
    ∧ (∀ (ofs w : Nat) (t : ValueTable) (a : Nat) (vs : List Nat),
        a + vs.length ≤ 65536 → (∀ v ∈ vs, v < 256 ^ w) →
        ValueTable.gets ofs w (ValueTable.sets ofs w t a vs) a vs.length
          = vs)
    ∧ (Registers.new.set_i16_values 0x8010
        [1, 2, 3, 4, 5, 6, 7, 8, 9]).get_i16_values 0x8010 16
        = [1, 2, 3, 4, 5, 6, 7, 8, 9, 0, 0, 0, 0, 0, 0, 0] := by
  refine ⟨?_, ?_, by decide⟩
  · intro w MIN MAX OFS t a vs hMAX hMIN hrun hv
    unfold Registers.set_values Registers.get_values
    rw [if_neg (by omega), if_pos ⟨hMIN, by omega, by omega⟩]
    show Mem.readVals w (Mem.writeVals w t.mem (w * (a - MIN + OFS)) vs)
        (w * (a - MIN + OFS)) vs.length = vs
    rw [Mem.readVals_writeVals_self]
    conv_rhs => rw [← List.map_id vs]
    exact List.map_congr_left fun v hvm => Nat.mod_eq_of_lt (hv v hvm)
  · intro ofs w t a vs hrun hv
    have hmin : min (65536 - a) vs.length = vs.length :=
      Nat.min_eq_right (by omega)
    unfold ValueTable.sets ValueTable.gets
    rw [hmin, List.take_length]
    show Mem.readVals w (Mem.writeVals w t.mem (ofs + w * a) vs)
        (ofs + w * a) vs.length = vs
    rw [Mem.readVals_writeVals_self]
    conv_rhs => rw [← List.map_id vs]
    exact List.map_congr_left fun v hvm => Nat.mod_eq_of_lt (hv v hvm)

/-- Witness for C2 (amended) at concrete runs in both modes. -/
theorem C2_witness :
    Registers.get_values 2 0x8000 0xBFFF 25600
        (Registers.set_values 2 0x8000 0xBFFF 25600 Registers.new 0x8010
          [1, 2, 3]) 0x8010 3 = [1, 2, 3]
    ∧ ValueTable.gets 73728 2
        (ValueTable.sets 73728 2 ValueTable.new 65530 [10, 20]) 65530 2
        = [10, 20] :=
  ⟨C2_bulk_round_trip_amended.1 2 0x8000 0xBFFF 25600 Registers.new 0x8010
      [1, 2, 3] (by decide) (by decide) (by decide) (by decide),
    C2_bulk_round_trip_amended.2.1 73728 2 ValueTable.new 65530 [10, 20]
      (by decide) (by decide)⟩

/-- C3: the spec claims Mode B copies all values *iff* the whole run lies
within `[MIN, MAX]`.  The code's guard `(reg + len) <= MAX` rejects the
in-range run `{0xBFFF}` of `set_i16_values(0xBFFF, [7])`: nothing is
written (the claimed iff fails in the right-to-left direction). -/
theorem C3_counterexample :
    Registers.set_values 2 Registers.BITS_16_REG_MIN Registers.BITS_16_REG_MAX
        Registers.BITS_16_REG_OFS Registers.new 0xBFFF [7] = Registers.new
    ∧ Registers.BITS_16_REG_MIN ≤ 0xBFFF
    ∧ 0xBFFF + 1 - 1 ≤ Registers.BITS_16_REG_MAX := by
  refine ⟨?_, by decide, by decide⟩
  unfold Registers.set_values
  rw [if_neg (by decide)]

/-- C3 (amended): Mode B `set_T_values(a, vs)` copies all of `vs` iff
`MIN ≤ a ≤ MAX` and `(a + (len(vs) mod 2^16)) mod 2^16 ≤ MAX` (the code's
guard: it rejects runs ending exactly at `MAX` and, through `u16`
wraparound, can accept runs extending past `MAX`); otherwise it writes
nothing at all (all-or-nothing).  `get_T_values(a, n)` returns `[]`
whenever the corresponding guard with `n` fails. -/
theorem C3_all_or_nothing_amended (w MIN MAX OFS : Nat) (t : Registers)
    (a num : Nat) (vs : List Nat) :
    (¬(MIN ≤ a ∧ a ≤ MAX ∧ (a + vs.length % 65536) % 65536 ≤ MAX) →
        Registers.set_values w MIN MAX OFS t a vs = t)
    ∧ ((MIN ≤ a ∧ a ≤ MAX ∧ (a + vs.length % 65536) % 65536 ≤ MAX) →
        Mem.readVals w (Registers.set_values w MIN MAX OFS t a vs).mem
          (w * (a - MIN + OFS)) vs.length = vs.map (· % 256 ^ w))
    ∧ (¬(MIN ≤ a ∧ a ≤ MAX ∧ (a + num) % 65536 ≤ MAX) →
        Registers.get_values w MIN MAX OFS t a num = []) := by
  refine ⟨fun h => ?_, fun h => ?_, fun h => ?_⟩
  · unfold Registers.set_values
    rw [if_neg h]
  · unfold Registers.set_values
    rw [if_pos h]
    exact Mem.readVals_writeVals_self w t.mem (w * (a - MIN + OFS)) vs
  · unfold Registers.get_values
    rw [if_pos (by omega)]

/-- Witness for C3 (amended): a below-range write is a no-op, an in-range
write copies everything, a below-range bulk read is empty. -/
theorem C3_witness :
    Registers.set_values 2 0x8000 0xBFFF 25600 Registers.new 0x7000 [5]
        = Registers.new
    ∧ Mem.readVals 2 (Registers.set_values 2 0x8000 0xBFFF 25600
        Registers.new 0x8000 [5]).mem (2 * (0x8000 - 0x8000 + 25600)) 1
        = [5 % 256 ^ 2]
    ∧ Registers.get_values 2 0x8000 0xBFFF 25600 Registers.new 0x7000 1
        = [] :=
  ⟨(C3_all_or_nothing_amended 2 0x8000 0xBFFF 25600 Registers.new 0x7000 1
      [5]).1 (by decide),
    (C3_all_or_nothing_amended 2 0x8000 0xBFFF 25600 Registers.new 0x8000 1
      [5]).2.1 (by decide),
    (C3_all_or_nothing_amended 2 0x8000 0xBFFF 25600 Registers.new 0x7000 1
      [5]).2.2 (by decide)⟩

/-- C4: Mode A bulk truncation.  `get_Ts(addr, num)` returns exactly
`min(num, 65536 - addr)` values, element `k` being the `T` stored at
element slot `addr + k`; `set_Ts(addr, vs)` stores exactly
`min(len(vs), 65536 - addr)` values and leaves every byte at or beyond the
truncation point unchanged. -/
theorem C4_modeA_truncation (ofs w : Nat) (t : ValueTable) (addr num : Nat)
    (vs : List Nat) (_ha : addr < 65536) :
    ((ValueTable.gets ofs w t addr num).length = min num (65536 - addr)
      ∧ ∀ k, k < min num (65536 - addr) →
          (ValueTable.gets ofs w t addr num).getD k 0
            = t.mem.readLE (ofs + w * (addr + k)) w)
    ∧ (∀ k, k < min vs.length (65536 - addr) →
        (ValueTable.sets ofs w t addr vs).mem.readLE
          (ofs + w * (addr + k)) w = vs.getD k 0 % 256 ^ w)
    ∧ (∀ j, ofs + w * (addr + min vs.length (65536 - addr)) ≤ j →
        (ValueTable.sets ofs w t addr vs).mem j = t.mem j) := by
  have harg : ∀ k, ofs + w * (addr + k) = ofs + w * addr + w * k := by
    intro k; ring
  refine ⟨⟨?_, fun k hk => ?_⟩, fun k hk => ?_, fun j hj => ?_⟩
  · rw [ValueTable.gets, Mem.readVals_length, Nat.min_comm]
  · rw [ValueTable.gets, harg k,
      Mem.readVals_getD w t.mem (ofs + w * addr) _ k (by omega)]
  · show (Mem.writeVals w t.mem (ofs + w * addr)
        (vs.take (min (65536 - addr) vs.length))).readLE
        (ofs + w * (addr + k)) w = vs.getD k 0 % 256 ^ w
    have hlen : (vs.take (min (65536 - addr) vs.length)).length
        = min vs.length (65536 - addr) := by
      rw [List.length_take]
      omega
    rw [harg k, Mem.readLE_writeVals_self w t.mem (ofs + w * addr) _ k
        (by omega), List.getD_eq_getElem?_getD, List.getElem?_take,
      if_pos (by omega), ← List.getD_eq_getElem?_getD]
  · show Mem.writeVals w t.mem (ofs + w * addr)
        (vs.take (min (65536 - addr) vs.length)) j = t.mem j
    apply Mem.writeVals_apply_outside
    right
    have hlen : (vs.take (min (65536 - addr) vs.length)).length
        = min vs.length (65536 - addr) := by
      rw [List.length_take]
      omega
    rw [hlen]
    rw [harg (min vs.length (65536 - addr))] at hj
    omega

/-- Witness for C4: the spec's `u16` scenario at address 65530 (6 remaining
slots): 10 requested values clamp to 6; the 6th written value reads back
and the first byte past the truncation point is untouched. -/
theorem C4_witness :
    (ValueTable.gets 73728 2 ValueTable.new 65530 10).length
        = min 10 (65536 - 65530)
    ∧ (ValueTable.sets 73728 2 ValueTable.new 65530
        [10, 20, 30, 40, 50, 60, 70, 80, 90, 100]).mem.readLE
        (73728 + 2 * (65530 + 5)) 2 = 60 % 256 ^ 2
    ∧ (ValueTable.sets 73728 2 ValueTable.new 65530
        [10, 20, 30, 40, 50, 60, 70, 80, 90, 100]).mem 204800
        = ValueTable.new.mem 204800 :=
  ⟨(C4_modeA_truncation 73728 2 ValueTable.new 65530 10 [] (by decide)).1.1,
    (C4_modeA_truncation 73728 2 ValueTable.new 65530 10
      [10, 20, 30, 40, 50, 60, 70, 80, 90, 100] (by decide)).2.1 5
      (by decide),
    (C4_modeA_truncation 73728 2 ValueTable.new 65530 10
      [10, 20, 30, 40, 50, 60, 70, 80, 90, 100] (by decide)).2.2 204800
      (by decide)⟩

/-- Witness for C10 at concrete distinct addresses (same word and
different words). -/
theorem C10_witness :
    ((ValueTable.new.set_bit 3).get_bit 5 = ValueTable.new.get_bit 5
      ∧ (ValueTable.new.clear_bit 3).get_bit 5 = ValueTable.new.get_bit 5)
    ∧ ((Registers.new.set_bit 64).get_bit 5 = Registers.new.get_bit 5
      ∧ (Registers.new.clear_bit 64).get_bit 5 = Registers.new.get_bit 5) :=
  ⟨C10_bit_independence.1 ValueTable.new 3 5 (by decide) (by decide)
      (by decide),
    C10_bit_independence.2 Registers.new 64 5 (by decide) (by decide)
      (by decide)⟩

end Xvt
